import Mathlib

/-!
Verification of the bounded MPMC queue `mpmc_bq` of
`storage/innobase/include/ut0mpmcbq.h` (Dmitry Vyukov's bounded MPMC
queue algorithm), shallowly embedded as a sequential state-passing
semantics.

* `size_t` arithmetic is modelled by natural numbers reduced modulo
  `2 ^ 64` (`M64`); the `(intptr_t)` casts and the signed subtraction
  `diff = (intptr_t)seq - (intptr_t)pos` are modelled by `diffInt`,
  the two's-complement reinterpretation of the 64-bit wrapping
  difference.
* The weak `compare_exchange_weak` is modelled deterministically: it
  succeeds exactly when the compared value matches, which is its
  guaranteed behaviour in a single-threaded (sequential) execution.
* The `for (;;)` retry loops carry explicit fuel; a result of `none`
  models a call that did not finish within the given number of
  iterations.  The theorems show that from reachable states the first
  iteration already decides the call.
* The raw aligned cell storage is uninitialised at construction, so a
  cell's payload is modelled as `Option T`, `none` standing for the
  indeterminate initial contents.  The out-parameter `T &data` of
  `dequeue` is modelled by threading an `Option T` value through the
  call (unchanged when the call returns `false`).
-/

/-- The value `2 ^ 64`, the modulus of `size_t` arithmetic on the target platform. -/
def M64 : Nat := 18446744073709551616

/-- The value `2 ^ 63`; 64-bit values at or above this are negative as `intptr_t`. -/
def H63 : Nat := 9223372036854775808

/-- Two's-complement reinterpretation of a 64-bit unsigned value as a
signed integer (`(intptr_t)x` for `x < 2 ^ 64`). -/
def toSigned (x : Nat) : Int :=
  if x < H63 then (x : Int) else (x : Int) - (M64 : Int)

/-- Wrapping 64-bit subtraction `a - b` (result in `[0, 2 ^ 64)`). -/
def sub64 (a b : Nat) : Nat := (a + (M64 - b % M64)) % M64

/-- The expression `(intptr_t)a - (intptr_t)b` of the source: the
wrapping difference of two `size_t` values read as a signed integer. -/
def diffInt (a b : Nat) : Int := toSigned (sub64 a b)

/-- One slot of the ring (`struct Cell` of the source): an atomic
sequence number `m_pos` and the payload storage `m_data` (`none` models
the uninitialised storage before any producer has written it). -/
structure Cell (T : Type) where
  m_pos : Nat
  m_data : Option T
deriving DecidableEq, Repr

/-- Default cell used as the `getD` fallback; never reached for the
in-range indices produced by `pos & m_capacity` on a well-formed queue. -/
def cell0 {T : Type} : Cell T := { m_pos := 0, m_data := none }

/-- The queue state: ring of cells, `m_capacity` (which stores
`n_elems - 1`, the index mask), and the two cursors. -/
structure mpmc_bq (T : Type) where
  m_ring : List (Cell T)
  m_capacity : Nat
  m_enqueue_pos : Nat
  m_dequeue_pos : Nat
deriving DecidableEq, Repr

/-- The constructor `mpmc_bq(size_t n_elems)`.  The fatal precondition
`ut_a((n_elems >= 2) && ((n_elems & (n_elems - 1)) == 0))` is modelled
by returning `none`.  Each cell `i` gets `m_pos = i`; both cursors are
zeroed. -/
def mpmc_bq.construct (T : Type) (n_elems : Nat) : Option (mpmc_bq T) :=
  if 2 ≤ n_elems ∧ n_elems &&& (n_elems - 1) = 0 then
    some { m_ring := (List.range n_elems).map fun i => { m_pos := i, m_data := none },
           m_capacity := n_elems - 1,
           m_enqueue_pos := 0,
           m_dequeue_pos := 0 }
  else none

/-- The `for (;;)` loop of `enqueue`, with explicit fuel.  `pos` is the
local cursor copy; on a failed CAS or a `diff > 0` observation the loop
re-reads `m_enqueue_pos`.  On success the payload write and the release
store `cell->m_pos = pos + 1` are performed and `true` is returned. -/
def mpmc_bq.enqueueLoop {T : Type} (q : mpmc_bq T) (data : T) :
    Nat → Nat → Option (mpmc_bq T × Bool)
  | 0, _ => none
  | fuel + 1, pos =>
    let idx := pos &&& q.m_capacity
    let cell := q.m_ring.getD idx cell0
    let diff : Int := diffInt cell.m_pos pos
    if diff = 0 then
      if q.m_enqueue_pos = pos then
        some ({ q with
                  m_enqueue_pos := (pos + 1) % M64,
                  m_ring := q.m_ring.set idx
                    { m_pos := (pos + 1) % M64, m_data := some data } },
              true)
      else
        q.enqueueLoop data fuel q.m_enqueue_pos
    else if diff < 0 then
      some (q, false)
    else
      q.enqueueLoop data fuel q.m_enqueue_pos

/-- The method `enqueue(const T &data)`.  The initial `pos` is the relaxed load of
`m_enqueue_pos`; two units of fuel suffice for every sequential call
(`none` would mean the loop spun without reaching a decision). -/
def mpmc_bq.enqueue {T : Type} (q : mpmc_bq T) (data : T) :
    Option (mpmc_bq T × Bool) :=
  q.enqueueLoop data 2 q.m_enqueue_pos

/-- The `for (;;)` loop of `dequeue`, with explicit fuel.  `data` is the
current contents of the caller's out-parameter.  On success the payload
is copied out and the cell is re-armed with
`cell->m_pos = pos + m_capacity + 1`. -/
def mpmc_bq.dequeueLoop {T : Type} (q : mpmc_bq T) (data : Option T) :
    Nat → Nat → Option (mpmc_bq T × Option T × Bool)
  | 0, _ => none
  | fuel + 1, pos =>
    let idx := pos &&& q.m_capacity
    let cell := q.m_ring.getD idx cell0
    let diff : Int := diffInt cell.m_pos (pos + 1)
    if diff = 0 then
      if q.m_dequeue_pos = pos then
        some ({ q with
                  m_dequeue_pos := (pos + 1) % M64,
                  m_ring := q.m_ring.set idx
                    { m_pos := (pos + q.m_capacity + 1) % M64,
                      m_data := cell.m_data } },
              cell.m_data, true)
      else
        q.dequeueLoop data fuel q.m_dequeue_pos
    else if diff < 0 then
      some (q, data, false)
    else
      q.dequeueLoop data fuel q.m_dequeue_pos

/-- The method `dequeue(T &data)`.  The initial `pos` is the relaxed load of
`m_dequeue_pos`. -/
def mpmc_bq.dequeue {T : Type} (q : mpmc_bq T) (data : Option T) :
    Option (mpmc_bq T × Option T × Bool) :=
  q.dequeueLoop data 2 q.m_dequeue_pos

/-- The method `capacity()`, which returns `m_capacity + 1` (the constructor stored
`n_elems - 1`). -/
def mpmc_bq.capacity {T : Type} (q : mpmc_bq T) : Nat := q.m_capacity + 1

/-- The retry loop of `empty()`, with explicit fuel. -/
def mpmc_bq.emptyLoop {T : Type} (q : mpmc_bq T) :
    Nat → Nat → Option Bool
  | 0, _ => none
  | fuel + 1, pos =>
    let cell := q.m_ring.getD (pos &&& q.m_capacity) cell0
    let diff : Int := diffInt cell.m_pos (pos + 1)
    if diff = 0 then some false
    else if diff < 0 then some true
    else q.emptyLoop fuel q.m_dequeue_pos

/-- The method `empty()`. -/
def mpmc_bq.empty {T : Type} (q : mpmc_bq T) : Option Bool :=
  q.emptyLoop 2 q.m_dequeue_pos

/-! ### Arithmetic toolbox -/

theorem M64_eq : M64 = 2 ^ 64 := by norm_num [M64]

theorem H63_eq : H63 = 2 ^ 63 := by norm_num [H63]

/-- The signed interpretation of the wrapping difference recovers the
true difference of the unbounded counters, as long as that difference
lies in the signed 64-bit range. -/
theorem diffInt_spec (s p : Nat)
    (h : (s ≤ p ∧ p - s ≤ H63) ∨ (p ≤ s ∧ s - p < H63)) :
    diffInt (s % M64) (p % M64) = (s : Int) - (p : Int) := by
  unfold diffInt toSigned sub64 M64 H63 at *
  split <;> omega

/-- The difference `diffInt` only depends on its second argument modulo `2 ^ 64`. -/
theorem diffInt_mod_right (a b : Nat) : diffInt a (b % M64) = diffInt a b := by
  unfold diffInt toSigned sub64 M64
  omega

/-- Rewriting `diffInt a (b % 2 ^ 64 + c) = diffInt a (b + c)`: adding to an
already wrapped cursor value before comparing. -/
theorem diffInt_add_right_mod (a b c : Nat) :
    diffInt a (b % M64 + c) = diffInt a (b + c) := by
  unfold diffInt toSigned sub64 M64
  omega

/-- A power of two `and`-ed with its predecessor is zero, so the
constructor's `ut_a` accepts every power of two. -/
theorem pow_two_land_pred (k : Nat) : 2 ^ k &&& (2 ^ k - 1) = 0 := by
  apply Nat.eq_of_testBit_eq
  intro i
  rcases eq_or_ne k i with h | h
  · subst h
    simp
  · simp [Nat.testBit_two_pow_of_ne h]

/-- Conversely, a number `n ≥ 2` with `n &&& (n - 1) = 0` is a power of
two: the `ut_a` check accepts only powers of two. -/
theorem land_pred_eq_zero_pow (n : Nat) (h2 : 2 ≤ n) (h : n &&& (n - 1) = 0) :
    ∃ k, n = 2 ^ k := by
  refine ⟨n.log2, ?_⟩
  by_contra hne
  have hn0 : n ≠ 0 := by omega
  have hlo : 2 ^ n.log2 ≤ n := Nat.log2_self_le hn0
  have hhi : n < 2 ^ (n.log2 + 1) := Nat.lt_log2_self
  have hpow : 2 ^ (n.log2 + 1) = 2 * 2 ^ n.log2 := by
    rw [Nat.pow_succ]
    ring
  have hlt : 2 ^ n.log2 < n := lt_of_le_of_ne hlo fun he => hne he.symm
  have e1 : n / 2 ^ n.log2 = 1 := Nat.div_eq_of_lt_le (by omega) (by omega)
  have e2 : (n - 1) / 2 ^ n.log2 = 1 := Nat.div_eq_of_lt_le (by omega) (by omega)
  have t1 : n.testBit n.log2 = true := by
    rw [Nat.testBit_to_div_mod, e1]
    decide
  have t2 : (n - 1).testBit n.log2 = true := by
    rw [Nat.testBit_to_div_mod, e2]
    decide
  have t3 : (n &&& (n - 1)).testBit n.log2 = true := by
    rw [Nat.testBit_and, t1, t2]
    decide
  rw [h, Nat.zero_testBit] at t3
  exact Bool.false_ne_true t3

/-- A capacity `N = 2 ^ k < 2 ^ 64` forces `k < 64`. -/
theorem pow_lt_64 {N k : Nat} (hk : N = 2 ^ k) (h : N < M64) : k < 64 := by
  subst hk
  rw [M64_eq] at h
  by_contra hh
  push_neg at hh
  exact absurd h (not_lt.mpr (Nat.pow_le_pow_right (by norm_num) hh))

/-- A power-of-two capacity representable in `size_t` is at most `2 ^ 63`. -/
theorem pow_le_H63 {N k : Nat} (hk : N = 2 ^ k) (h : N < M64) : N ≤ H63 := by
  have h64 := pow_lt_64 hk h
  subst hk
  rw [H63_eq]
  exact Nat.pow_le_pow_right (by norm_num) (by omega)

/-- Masking `pos & m_capacity` on a wrapped cursor gives the ring index `pos % N`. -/
theorem mask_idx (k : Nat) (hk : k ≤ 64) (x : Nat) :
    (x % M64) &&& (2 ^ k - 1) = x % 2 ^ k := by
  rw [Nat.and_pow_two_sub_one_eq_mod, M64_eq, Nat.mod_mod_of_dvd]
  exact pow_dvd_pow 2 hk

/-- Two numbers in a window of length `N` that agree modulo `N` are equal. -/
theorem mod_window_eq {N D a b : Nat} (ha1 : D ≤ a) (ha2 : a < D + N)
    (hb1 : D ≤ b) (hb2 : b < D + N) (h : a % N = b % N) : a = b := by
  refine Nat.ModEq.eq_of_abs_lt h ?_
  rw [abs_sub_lt_iff]
  exact ⟨by omega, by omega⟩

/-! ### The producer/consumer ticket of a ring index -/

/-- The ticket `ticket D N i`: the unique position in the window `[D, D + N)` whose
ring index is `i`. -/
def ticket (D N i : Nat) : Nat := D + (i + N - D % N) % N

theorem le_ticket (D N i : Nat) : D ≤ ticket D N i := Nat.le_add_right _ _

theorem ticket_lt (hN : 0 < N) (D i : Nat) : ticket D N i < D + N :=
  Nat.add_lt_add_left (Nat.mod_lt _ hN) D

theorem ticket_mod (hN : 0 < N) {i : Nat} (hi : i < N) (D : Nat) :
    ticket D N i % N = i := by
  unfold ticket
  have h1 := Nat.div_add_mod D N
  have h2 : D % N < N := Nat.mod_lt _ hN
  rw [Nat.add_mod_mod]
  have h4 : N * (D / N + 1) = N * (D / N) + N := by ring
  have h3 : D + (i + N - D % N) = i + N * (D / N + 1) := by omega
  rw [h3, Nat.add_mul_mod_self_left, Nat.mod_eq_of_lt hi]

theorem ticket_eq (hN : 0 < N) {D p : Nat} (hp1 : D ≤ p) (hp2 : p < D + N) :
    ticket D N (p % N) = p := by
  have hm : p % N < N := Nat.mod_lt _ hN
  exact mod_window_eq (le_ticket _ _ _) (ticket_lt hN _ _) hp1 hp2
    (ticket_mod hN hm D)

/-- Advancing the consumer window past `D` leaves the ticket of every
other ring index unchanged. -/
theorem ticket_shift (hN : 0 < N) {i D : Nat} (hi : i < N) (hne : i ≠ D % N) :
    ticket (D + 1) N i = ticket D N i := by
  have h1 : D ≤ ticket D N i := le_ticket _ _ _
  have h2 : ticket D N i < D + N := ticket_lt hN _ _
  have h3 : ticket D N i % N = i := ticket_mod hN hi D
  have h4 : ticket D N i ≠ D := fun he => hne (by rw [← h3, he])
  have h5 := ticket_eq (D := D + 1) hN (p := ticket D N i) (by omega) (by omega)
  rw [h3] at h5
  exact h5

/-- After the consumer advances past `D`, the cell it released belongs
to the producer ticket `D + N`. -/
theorem ticket_shift_self (hN : 0 < N) (D : Nat) :
    ticket (D + 1) N (D % N) = D + N := by
  have h0 : (D + N) % N = D % N := Nat.add_mod_right D N
  have h5 := ticket_eq (D := D + 1) hN (p := D + N) (by omega) (by omega)
  rw [h0] at h5
  exact h5

/-! ### List access helpers -/

theorem getD_set_self {α : Type} (l : List α) {i : Nat} (h : i < l.length)
    (a d : α) : (l.set i a).getD i d = a := by
  rw [List.getD_eq_getElem?_getD, List.getElem?_set_self (by simpa using h)]
  rfl

theorem getD_set_ne {α : Type} (l : List α) {i j : Nat} (h : i ≠ j)
    (a d : α) : (l.set i a).getD j d = l.getD j d := by
  rw [List.getD_eq_getElem?_getD, List.getElem?_set_ne h,
    ← List.getD_eq_getElem?_getD]

theorem getD_init {T : Type} (n i : Nat) (h : i < n) :
    ((List.range n).map fun j => ({ m_pos := j, m_data := none } : Cell T)).getD i cell0
      = { m_pos := i, m_data := none } := by
  rw [List.getD_eq_getElem?_getD, List.getElem?_map, List.getElem?_range h]
  rfl

/-! ### The sequential invariant

`QInv N E D pending q` relates the concrete 64-bit state `q` to the
abstract unbounded cursors `E` (total successful enqueues) and `D`
(total successful dequeues) and to the abstract FIFO contents
`pending`.  The cell at ring index `i` belongs to the unique position
`ticket D N i` of the window `[D, D + N)`: its sequence field is
`ticket + 1` if that position has already been filled (`ticket < E`)
and `ticket` otherwise, always stored modulo `2 ^ 64`. -/

structure QInv {T : Type} (N E D : Nat) (pending : List T) (q : mpmc_bq T) : Prop where
  kpow : ∃ k, N = 2 ^ k
  nlt : N < M64
  ntwo : 2 ≤ N
  len : q.m_ring.length = N
  cap : q.m_capacity = N - 1
  ep : q.m_enqueue_pos = E % M64
  dp : q.m_dequeue_pos = D % M64
  dle : D ≤ E
  ele : E ≤ D + N
  plen : pending.length = E - D
  seqs : ∀ i, i < N →
    (q.m_ring.getD i cell0).m_pos =
      (if ticket D N i < E then ticket D N i + 1 else ticket D N i) % M64
  datas : ∀ j, j < E - D →
    (q.m_ring.getD ((D + j) % N) cell0).m_data = pending[j]?

/-- A freshly constructed queue satisfies the invariant with both
abstract cursors at `0` and no pending elements. -/
theorem construct_inv {T : Type} {N : Nat} {q : mpmc_bq T} (hN : N < M64)
    (h : mpmc_bq.construct T N = some q) : QInv N 0 0 ([] : List T) q := by
  unfold mpmc_bq.construct at h
  split at h
  case isFalse => exact absurd h (by simp)
  case isTrue hg =>
    obtain ⟨h2, hland⟩ := hg
    obtain ⟨k, hk⟩ := land_pred_eq_zero_pow N h2 hland
    have hN0 : 0 < N := by omega
    injection h with h
    subst h
    refine ⟨⟨k, hk⟩, hN, h2, by simp, rfl, rfl, rfl, Nat.le_refl 0,
      Nat.zero_le _, rfl, ?_, ?_⟩
    · intro i hi
      rw [getD_init N i hi]
      have ht : ticket 0 N i = i := by
        have hm : i % N = i := Nat.mod_eq_of_lt hi
        have := ticket_eq (D := 0) hN0 (p := i) (Nat.zero_le i) (by omega)
        rw [hm] at this
        exact this
      rw [ht, if_neg (by omega), Nat.mod_eq_of_lt (by omega)]
    · intro j hj
      exact absurd hj (by omega)

/-! ### One-step evaluation lemmas for the retry loops -/

theorem enqueueLoop_succ {T : Type} (q : mpmc_bq T) (v : T) (fuel pos : Nat) :
    q.enqueueLoop v (fuel + 1) pos =
      if diffInt (q.m_ring.getD (pos &&& q.m_capacity) cell0).m_pos pos = 0 then
        if q.m_enqueue_pos = pos then
          some ({ q with
                    m_enqueue_pos := (pos + 1) % M64,
                    m_ring := q.m_ring.set (pos &&& q.m_capacity)
                      { m_pos := (pos + 1) % M64, m_data := some v } },
                true)
        else q.enqueueLoop v fuel q.m_enqueue_pos
      else if diffInt (q.m_ring.getD (pos &&& q.m_capacity) cell0).m_pos pos < 0 then
        some (q, false)
      else q.enqueueLoop v fuel q.m_enqueue_pos := rfl

theorem dequeueLoop_succ {T : Type} (q : mpmc_bq T) (d : Option T) (fuel pos : Nat) :
    q.dequeueLoop d (fuel + 1) pos =
      if diffInt (q.m_ring.getD (pos &&& q.m_capacity) cell0).m_pos (pos + 1) = 0 then
        if q.m_dequeue_pos = pos then
          some ({ q with
                    m_dequeue_pos := (pos + 1) % M64,
                    m_ring := q.m_ring.set (pos &&& q.m_capacity)
                      { m_pos := (pos + q.m_capacity + 1) % M64,
                        m_data := (q.m_ring.getD (pos &&& q.m_capacity) cell0).m_data } },
                (q.m_ring.getD (pos &&& q.m_capacity) cell0).m_data, true)
        else q.dequeueLoop d fuel q.m_dequeue_pos
      else if diffInt (q.m_ring.getD (pos &&& q.m_capacity) cell0).m_pos (pos + 1) < 0 then
        some (q, d, false)
      else q.dequeueLoop d fuel q.m_dequeue_pos := rfl

theorem emptyLoop_succ {T : Type} (q : mpmc_bq T) (fuel pos : Nat) :
    q.emptyLoop (fuel + 1) pos =
      if diffInt (q.m_ring.getD (pos &&& q.m_capacity) cell0).m_pos (pos + 1) = 0 then
        some false
      else if diffInt (q.m_ring.getD (pos &&& q.m_capacity) cell0).m_pos (pos + 1) < 0 then
        some true
      else q.emptyLoop fuel q.m_dequeue_pos := rfl

/-- Variant of `diffInt_spec` with an unwrapped second argument. -/
theorem diffInt_spec2 (s p : Nat)
    (h : (s ≤ p ∧ p - s ≤ H63) ∨ (p ≤ s ∧ s - p < H63)) :
    diffInt (s % M64) p = (s : Int) - (p : Int) := by
  rw [← diffInt_mod_right]
  exact diffInt_spec s p h

/-! ### The producer path on a reachable state -/

/-- Successful `enqueue`: when the queue is not full the first loop
iteration claims ticket `E`, the CAS succeeds, and the invariant is
re-established with the new value appended to the pending list. -/
theorem enqueue_ok {T : Type} {N E D : Nat} {pending : List T} {q : mpmc_bq T}
    (hI : QInv N E D pending q) (hroom : E < D + N) (v : T) :
    ∃ q', (∀ fuel, q.enqueueLoop v (fuel + 1) q.m_enqueue_pos = some (q', true))
      ∧ q.enqueue v = some (q', true)
      ∧ QInv N (E + 1) D (pending ++ [v]) q' := by
  obtain ⟨k, hk⟩ := hI.kpow
  have hN0 : 0 < N := by have := hI.ntwo; omega
  have hk64 : k ≤ 64 := le_of_lt (pow_lt_64 hk hI.nlt)
  have hiE : E % N < N := Nat.mod_lt _ hN0
  have hidx : q.m_enqueue_pos &&& q.m_capacity = E % N := by
    rw [hI.ep, hI.cap, hk, mask_idx k hk64]
  have ht : ticket D N (E % N) = E := ticket_eq hN0 hI.dle hroom
  have hseq : (q.m_ring.getD (E % N) cell0).m_pos = E % M64 := by
    rw [hI.seqs (E % N) hiE, ht, if_neg (lt_irrefl E)]
  have hd0 : diffInt (E % M64) q.m_enqueue_pos = 0 := by
    rw [hI.ep, diffInt_spec E E (Or.inr ⟨Nat.le_refl E, by rw [Nat.sub_self]; norm_num [H63]⟩)]
    omega
  have hstep : ∀ fuel, q.enqueueLoop v (fuel + 1) q.m_enqueue_pos
      = some ({ q with
                  m_enqueue_pos := (E + 1) % M64,
                  m_ring := q.m_ring.set (E % N)
                    { m_pos := (E + 1) % M64, m_data := some v } }, true) := by
    intro fuel
    rw [enqueueLoop_succ, hidx, hseq, hd0, if_pos rfl, if_pos rfl, hI.ep,
      Nat.mod_add_mod]
  refine ⟨{ q with
              m_enqueue_pos := (E + 1) % M64,
              m_ring := q.m_ring.set (E % N)
                { m_pos := (E + 1) % M64, m_data := some v } }, hstep, hstep 1, ?_⟩
  · have hdle := hI.dle
    refine ⟨⟨k, hk⟩, hI.nlt, hI.ntwo, ?_, hI.cap, rfl, hI.dp, by omega,
      by omega, ?_, ?_, ?_⟩
    · simpa using hI.len
    · have h1 := hI.plen
      have h2 := hI.dle
      simp only [List.length_append, List.length_cons, List.length_nil]
      omega
    · intro i hi
      rcases eq_or_ne i (E % N) with he | hne
      · subst he
        rw [show ({ q with
              m_enqueue_pos := (E + 1) % M64,
              m_ring := q.m_ring.set (E % N)
                { m_pos := (E + 1) % M64, m_data := some v } } : mpmc_bq T).m_ring
            = q.m_ring.set (E % N) { m_pos := (E + 1) % M64, m_data := some v } from rfl,
          getD_set_self _ (by rw [hI.len]; exact hiE) _ _, ht, if_pos (by omega)]
      · rw [show ({ q with
              m_enqueue_pos := (E + 1) % M64,
              m_ring := q.m_ring.set (E % N)
                { m_pos := (E + 1) % M64, m_data := some v } } : mpmc_bq T).m_ring
            = q.m_ring.set (E % N) { m_pos := (E + 1) % M64, m_data := some v } from rfl,
          getD_set_ne _ (Ne.symm hne) _ _, hI.seqs i hi]
        have hti : ticket D N i % N = i := ticket_mod hN0 hi D
        have htne : ticket D N i ≠ E := fun hh => hne (by rw [← hti, hh])
        by_cases hlt : ticket D N i < E
        · rw [if_pos hlt, if_pos (by omega)]
        · rw [if_neg hlt, if_neg (by omega)]
    · intro j hj
      rw [show ({ q with
            m_enqueue_pos := (E + 1) % M64,
            m_ring := q.m_ring.set (E % N)
              { m_pos := (E + 1) % M64, m_data := some v } } : mpmc_bq T).m_ring
          = q.m_ring.set (E % N) { m_pos := (E + 1) % M64, m_data := some v } from rfl]
      have hele := hI.ele
      rcases Nat.lt_or_ge j (E - D) with hj1 | hj2
      · have hne : E % N ≠ (D + j) % N := by
          intro hh
          have h1 : D + j < D + N := by omega
          have h2 := mod_window_eq (N := N) (D := D) hI.dle hroom
            (Nat.le_add_right _ _) h1 hh
          omega
        rw [getD_set_ne _ hne _ _, hI.datas j hj1,
          List.getElem?_append_left (by rw [hI.plen]; omega)]
      · have hje : j = E - D := by omega
        subst hje
        have hDE : D + (E - D) = E := by have := hI.dle; omega
        rw [hDE, getD_set_self _ (by rw [hI.len]; exact hiE) _ _]
        have hcat : (pending ++ [v])[pending.length]? = some v :=
          List.getElem?_concat_length _ _
        rw [hI.plen] at hcat
        exact hcat.symm

/-- Failed `enqueue`: when the queue is full (`E = D + N`) the first
loop iteration observes `diff = 1 - N < 0` and returns `false` leaving
the state untouched. -/
theorem enqueue_full {T : Type} {N E D : Nat} {pending : List T} {q : mpmc_bq T}
    (hI : QInv N E D pending q) (hfull : E = D + N) (v : T) :
    (∀ fuel, q.enqueueLoop v (fuel + 1) q.m_enqueue_pos = some (q, false))
      ∧ q.enqueue v = some (q, false) := by
  obtain ⟨k, hk⟩ := hI.kpow
  have hN0 : 0 < N := by have := hI.ntwo; omega
  have hk64 : k ≤ 64 := le_of_lt (pow_lt_64 hk hI.nlt)
  have hNH : N ≤ H63 := pow_le_H63 hk hI.nlt
  have hidx : q.m_enqueue_pos &&& q.m_capacity = E % N := by
    rw [hI.ep, hI.cap, hk, mask_idx k hk64]
  have hED : E % N = D % N := by rw [hfull, Nat.add_mod_right]
  have ht : ticket D N (D % N) = D := ticket_eq hN0 (Nat.le_refl D) (by omega)
  have hseq : (q.m_ring.getD (E % N) cell0).m_pos = (D + 1) % M64 := by
    rw [hED, hI.seqs (D % N) (Nat.mod_lt _ hN0), ht, if_pos (by omega)]
  have hdneg : diffInt ((D + 1) % M64) q.m_enqueue_pos = 1 - (N : Int) := by
    rw [hI.ep, diffInt_spec (D + 1) E (Or.inl ⟨by omega, by omega⟩)]
    omega
  have hne0 : diffInt ((D + 1) % M64) q.m_enqueue_pos ≠ 0 := by
    rw [hdneg]
    have := hI.ntwo
    intro hh
    omega
  have hlt0 : diffInt ((D + 1) % M64) q.m_enqueue_pos < 0 := by
    rw [hdneg]
    have := hI.ntwo
    omega
  have hstep : ∀ fuel, q.enqueueLoop v (fuel + 1) q.m_enqueue_pos = some (q, false) := by
    intro fuel
    rw [enqueueLoop_succ, hidx, hseq, if_neg hne0, if_pos hlt0]
  exact ⟨hstep, hstep 1⟩

/-! ### The consumer path on a reachable state -/

/-- Successful `dequeue`: when the queue is non-empty the first loop
iteration claims ticket `D`, the CAS succeeds, the head of the pending
list is copied out, and the cell is re-armed with sequence `D + N`. -/
theorem dequeue_ok {T : Type} {N E D : Nat} {pending : List T} {q : mpmc_bq T}
    (hI : QInv N E D pending q) (hne : D < E) (d : Option T) :
    ∃ q', q' = { q with
                   m_dequeue_pos := (D + 1) % M64,
                   m_ring := q.m_ring.set (D % N)
                     { m_pos := (D + N) % M64, m_data := pending[0]? } }
      ∧ (∀ fuel, q.dequeueLoop d (fuel + 1) q.m_dequeue_pos
              = some (q', pending[0]?, true))
      ∧ q.dequeue d = some (q', pending[0]?, true)
      ∧ QInv N E (D + 1) pending.tail q' := by
  obtain ⟨k, hk⟩ := hI.kpow
  have hN0 : 0 < N := by have := hI.ntwo; omega
  have hk64 : k ≤ 64 := le_of_lt (pow_lt_64 hk hI.nlt)
  have hele := hI.ele
  have hiD : D % N < N := Nat.mod_lt _ hN0
  have hidx : q.m_dequeue_pos &&& q.m_capacity = D % N := by
    rw [hI.dp, hI.cap, hk, mask_idx k hk64]
  have ht : ticket D N (D % N) = D := ticket_eq hN0 (Nat.le_refl D) (by omega)
  have hseq : (q.m_ring.getD (D % N) cell0).m_pos = (D + 1) % M64 := by
    rw [hI.seqs (D % N) hiD, ht, if_pos hne]
  have hdata : (q.m_ring.getD (D % N) cell0).m_data = pending[0]? := by
    have h0 := hI.datas 0 (by omega)
    rw [Nat.add_zero] at h0
    exact h0
  have hd0 : diffInt ((D + 1) % M64) (q.m_dequeue_pos + 1) = 0 := by
    rw [hI.dp, diffInt_add_right_mod,
      diffInt_spec2 (D + 1) (D + 1)
        (Or.inr ⟨Nat.le_refl _, by rw [Nat.sub_self]; norm_num [H63]⟩)]
    omega
  have hstep : ∀ fuel, q.dequeueLoop d (fuel + 1) q.m_dequeue_pos
      = some ({ q with
                  m_dequeue_pos := (D + 1) % M64,
                  m_ring := q.m_ring.set (D % N)
                    { m_pos := (D + N) % M64, m_data := pending[0]? } },
              pending[0]?, true) := by
    intro fuel
    rw [dequeueLoop_succ, hidx, hseq, hdata, hd0, if_pos rfl, if_pos rfl,
      hI.dp, hI.cap,
      show D % M64 + (N - 1) + 1 = D % M64 + N from by omega,
      Nat.mod_add_mod, Nat.mod_add_mod]
  refine ⟨{ q with
              m_dequeue_pos := (D + 1) % M64,
              m_ring := q.m_ring.set (D % N)
                { m_pos := (D + N) % M64, m_data := pending[0]? } },
    rfl, hstep, hstep 1, ?_⟩
  refine ⟨⟨k, hk⟩, hI.nlt, hI.ntwo, ?_, hI.cap, hI.ep, rfl, by omega,
    by omega, ?_, ?_, ?_⟩
  · simpa using hI.len
  · have h1 := hI.plen
    simp only [List.length_tail]
    omega
  · intro i hi
    rw [show ({ q with
          m_dequeue_pos := (D + 1) % M64,
          m_ring := q.m_ring.set (D % N)
            { m_pos := (D + N) % M64, m_data := pending[0]? } } : mpmc_bq T).m_ring
        = q.m_ring.set (D % N) { m_pos := (D + N) % M64, m_data := pending[0]? }
      from rfl]
    rcases eq_or_ne i (D % N) with he | hne2
    · subst he
      rw [getD_set_self _ (by rw [hI.len]; exact hiD) _ _,
        ticket_shift_self hN0 D, if_neg (by omega)]
    · rw [getD_set_ne _ (Ne.symm hne2) _ _, hI.seqs i hi,
        ticket_shift hN0 hi hne2]
  · intro j hj
    rw [show ({ q with
          m_dequeue_pos := (D + 1) % M64,
          m_ring := q.m_ring.set (D % N)
            { m_pos := (D + N) % M64, m_data := pending[0]? } } : mpmc_bq T).m_ring
        = q.m_ring.set (D % N) { m_pos := (D + N) % M64, m_data := pending[0]? }
      from rfl]
    have hne2 : D % N ≠ (D + 1 + j) % N := by
      intro hh
      have hDN : (D + N) % N = D % N := Nat.add_mod_right D N
      rw [← hDN] at hh
      have h4 := mod_window_eq (N := N) (D := D + 1) (a := D + N)
        (b := D + 1 + j) (by omega) (by omega) (by omega) (by omega) hh
      omega
    rw [getD_set_ne _ hne2 _ _]
    have h3 := hI.datas (j + 1) (by omega)
    rw [show D + (j + 1) = D + 1 + j from by omega] at h3
    rw [h3, List.getElem?_tail]

/-- Failed `dequeue`: when the queue is empty (`D = E`) the first loop
iteration observes `diff = -1 < 0` and returns `false`, leaving both
the queue state and the caller's out-parameter untouched. -/
theorem dequeue_empty {T : Type} {N E D : Nat} {pending : List T} {q : mpmc_bq T}
    (hI : QInv N E D pending q) (hDE : D = E) (d : Option T) :
    (∀ fuel, q.dequeueLoop d (fuel + 1) q.m_dequeue_pos = some (q, d, false))
      ∧ q.dequeue d = some (q, d, false) := by
  obtain ⟨k, hk⟩ := hI.kpow
  have hN0 : 0 < N := by have := hI.ntwo; omega
  have hk64 : k ≤ 64 := le_of_lt (pow_lt_64 hk hI.nlt)
  have hiD : D % N < N := Nat.mod_lt _ hN0
  have hidx : q.m_dequeue_pos &&& q.m_capacity = D % N := by
    rw [hI.dp, hI.cap, hk, mask_idx k hk64]
  have ht : ticket D N (D % N) = D := ticket_eq hN0 (Nat.le_refl D) (by omega)
  have hseq : (q.m_ring.getD (D % N) cell0).m_pos = D % M64 := by
    rw [hI.seqs (D % N) hiD, ht, if_neg (by omega)]
  have hdneg : diffInt (D % M64) (q.m_dequeue_pos + 1) = -1 := by
    rw [hI.dp, diffInt_add_right_mod,
      diffInt_spec2 D (D + 1) (Or.inl ⟨by omega, by norm_num [H63]⟩)]
    omega
  have hne0 : diffInt (D % M64) (q.m_dequeue_pos + 1) ≠ 0 := by
    rw [hdneg]
    decide
  have hlt0 : diffInt (D % M64) (q.m_dequeue_pos + 1) < 0 := by
    rw [hdneg]
    decide
  have hstep : ∀ fuel, q.dequeueLoop d (fuel + 1) q.m_dequeue_pos
      = some (q, d, false) := by
    intro fuel
    rw [dequeueLoop_succ, hidx, hseq, if_neg hne0, if_pos hlt0]
  exact ⟨hstep, hstep 1⟩

/-! ### `empty()` on a reachable state -/

theorem empty_false {T : Type} {N E D : Nat} {pending : List T} {q : mpmc_bq T}
    (hI : QInv N E D pending q) (hne : D < E) :
    (∀ fuel, q.emptyLoop (fuel + 1) q.m_dequeue_pos = some false)
      ∧ q.empty = some false := by
  obtain ⟨k, hk⟩ := hI.kpow
  have hN0 : 0 < N := by have := hI.ntwo; omega
  have hk64 : k ≤ 64 := le_of_lt (pow_lt_64 hk hI.nlt)
  have hiD : D % N < N := Nat.mod_lt _ hN0
  have hidx : q.m_dequeue_pos &&& q.m_capacity = D % N := by
    rw [hI.dp, hI.cap, hk, mask_idx k hk64]
  have ht : ticket D N (D % N) = D := ticket_eq hN0 (Nat.le_refl D) (by omega)
  have hseq : (q.m_ring.getD (D % N) cell0).m_pos = (D + 1) % M64 := by
    rw [hI.seqs (D % N) hiD, ht, if_pos hne]
  have hd0 : diffInt ((D + 1) % M64) (q.m_dequeue_pos + 1) = 0 := by
    rw [hI.dp, diffInt_add_right_mod,
      diffInt_spec2 (D + 1) (D + 1)
        (Or.inr ⟨Nat.le_refl _, by rw [Nat.sub_self]; norm_num [H63]⟩)]
    omega
  have hstep : ∀ fuel, q.emptyLoop (fuel + 1) q.m_dequeue_pos = some false := by
    intro fuel
    rw [emptyLoop_succ, hidx, hseq, hd0, if_pos rfl]
  exact ⟨hstep, hstep 1⟩

theorem empty_true {T : Type} {N E D : Nat} {pending : List T} {q : mpmc_bq T}
    (hI : QInv N E D pending q) (hDE : D = E) :
    (∀ fuel, q.emptyLoop (fuel + 1) q.m_dequeue_pos = some true)
      ∧ q.empty = some true := by
  obtain ⟨k, hk⟩ := hI.kpow
  have hN0 : 0 < N := by have := hI.ntwo; omega
  have hk64 : k ≤ 64 := le_of_lt (pow_lt_64 hk hI.nlt)
  have hiD : D % N < N := Nat.mod_lt _ hN0
  have hidx : q.m_dequeue_pos &&& q.m_capacity = D % N := by
    rw [hI.dp, hI.cap, hk, mask_idx k hk64]
  have ht : ticket D N (D % N) = D := ticket_eq hN0 (Nat.le_refl D) (by omega)
  have hseq : (q.m_ring.getD (D % N) cell0).m_pos = D % M64 := by
    rw [hI.seqs (D % N) hiD, ht, if_neg (by omega)]
  have hdneg : diffInt (D % M64) (q.m_dequeue_pos + 1) = -1 := by
    rw [hI.dp, diffInt_add_right_mod,
      diffInt_spec2 D (D + 1) (Or.inl ⟨by omega, by norm_num [H63]⟩)]
    omega
  have hne0 : diffInt (D % M64) (q.m_dequeue_pos + 1) ≠ 0 := by
    rw [hdneg]
    decide
  have hlt0 : diffInt (D % M64) (q.m_dequeue_pos + 1) < 0 := by
    rw [hdneg]
    decide
  have hstep : ∀ fuel, q.emptyLoop (fuel + 1) q.m_dequeue_pos = some true := by
    intro fuel
    rw [emptyLoop_succ, hidx, hseq, if_neg hne0, if_pos hlt0]
  exact ⟨hstep, hstep 1⟩

/-! ### Reachable states -/

/-- The states reachable from a freshly constructed queue of capacity
`N` by any sequence of (sequential) `enqueue` and `dequeue` calls. -/
inductive Reaches (T : Type) (N : Nat) : mpmc_bq T → Prop where
  | init (q : mpmc_bq T) : mpmc_bq.construct T N = some q → Reaches T N q
  | enq (q q' : mpmc_bq T) (v : T) (b : Bool) :
      Reaches T N q → q.enqueue v = some (q', b) → Reaches T N q'
  | deq (q q' : mpmc_bq T) (d d' : Option T) (b : Bool) :
      Reaches T N q → q.dequeue d = some (q', d', b) → Reaches T N q'

/-- Every reachable state satisfies the invariant for some abstract
cursor pair and pending list. -/
theorem reaches_inv {T : Type} {N : Nat} {q : mpmc_bq T} (hN : N < M64)
    (h : Reaches T N q) : ∃ E D pending, QInv N E D pending q := by
  induction h with
  | init q0 hq => exact ⟨0, 0, [], construct_inv hN hq⟩
  | enq q0 q' v b hr he ih =>
    obtain ⟨E, D, pending, hI⟩ := ih
    rcases Nat.lt_or_ge E (D + N) with hroom | hfull
    · obtain ⟨q1, hloop, henq, hI1⟩ := enqueue_ok hI hroom v
      rw [henq] at he
      simp only [Option.some.injEq, Prod.mk.injEq] at he
      obtain ⟨hq1, hb⟩ := he
      subst hq1
      exact ⟨E + 1, D, pending ++ [v], hI1⟩
    · have hfull2 : E = D + N := by have := hI.ele; omega
      obtain ⟨hloop, henq⟩ := enqueue_full hI hfull2 v
      rw [henq] at he
      simp only [Option.some.injEq, Prod.mk.injEq] at he
      obtain ⟨hq1, hb⟩ := he
      subst hq1
      exact ⟨E, D, pending, hI⟩
  | deq q0 q' d d' b hr hd ih =>
    obtain ⟨E, D, pending, hI⟩ := ih
    rcases Nat.lt_or_ge D E with hne | hemp
    · obtain ⟨q1, hq1eq, hloop, hdeq, hI1⟩ := dequeue_ok hI hne d
      rw [hdeq] at hd
      simp only [Option.some.injEq, Prod.mk.injEq] at hd
      obtain ⟨hq1, _, hb⟩ := hd
      subst hq1
      exact ⟨E, D + 1, pending.tail, hI1⟩
    · have hDE : D = E := by have := hI.dle; omega
      obtain ⟨hloop, hdeq⟩ := dequeue_empty hI hDE d
      rw [hdeq] at hd
      simp only [Option.some.injEq, Prod.mk.injEq] at hd
      obtain ⟨hq1, _, hb⟩ := hd
      subst hq1
      exact ⟨E, D, pending, hI⟩

/-! ### Sequential drivers used by the scenario claims -/

/-- Enqueue the values of `vs` one after the other; stops early (with
the failing state) if some enqueue reports a full queue. -/
def mpmc_bq.enqueueAll {T : Type} (q : mpmc_bq T) : List T → Option (mpmc_bq T × Bool)
  | [] => some (q, true)
  | v :: vs =>
    match q.enqueue v with
    | some (q', true) => q'.enqueueAll vs
    | some (q', false) => some (q', false)
    | none => none

/-- Perform `n` dequeues, collecting the dequeued values; `none` if any
of them fails or spins. -/
def mpmc_bq.dequeueAll {T : Type} (q : mpmc_bq T) : Nat → Option (mpmc_bq T × List T)
  | 0 => some (q, [])
  | n + 1 =>
    match q.dequeue none with
    | some (q', some v, true) =>
      match q'.dequeueAll n with
      | some (q'', out) => some (q'', v :: out)
      | none => none
    | _ => none

/-- Perform one successful enqueue/dequeue pair per value of `vs`. -/
def mpmc_bq.edPairs {T : Type} (q : mpmc_bq T) : List T → Option (mpmc_bq T)
  | [] => some q
  | v :: vs =>
    match q.enqueue v with
    | some (q', true) =>
      match q'.dequeue none with
      | some (q'', _, true) => q''.edPairs vs
      | _ => none
    | _ => none

theorem enqueueAll_inv {T : Type} {N : Nat} : ∀ (vs : List T) {E D : Nat}
    {pending : List T} {q q' : mpmc_bq T},
    QInv N E D pending q → q.enqueueAll vs = some (q', true) →
    QInv N (E + vs.length) D (pending ++ vs) q' := by
  intro vs
  induction vs with
  | nil =>
    intro E D pending q q' hI h
    simp only [mpmc_bq.enqueueAll, Option.some.injEq, Prod.mk.injEq] at h
    obtain ⟨hq1, _⟩ := h
    subst hq1
    simpa using hI
  | cons v vs ih =>
    intro E D pending q q' hI h
    rcases Nat.lt_or_ge E (D + N) with hroom | hfull
    · obtain ⟨q1, hloop, henq, hI1⟩ := enqueue_ok hI hroom v
      simp only [mpmc_bq.enqueueAll, henq] at h
      have h2 := ih hI1 h
      rw [List.length_cons, show E + (vs.length + 1) = E + 1 + vs.length from by omega,
        show pending ++ v :: vs = (pending ++ [v]) ++ vs from by simp]
      exact h2
    · obtain ⟨hloop, henq⟩ := enqueue_full hI (by have := hI.ele; omega) v
      simp only [mpmc_bq.enqueueAll, henq, Option.some.injEq, Prod.mk.injEq] at h
      exact absurd h.2 (by decide)

theorem dequeueAll_inv {T : Type} {N : Nat} : ∀ (n : Nat) {E D : Nat}
    {pending : List T} {q : mpmc_bq T},
    QInv N E D pending q → n = E - D →
    ∃ q', q.dequeueAll n = some (q', pending) ∧ QInv N E E ([] : List T) q' := by
  intro n
  induction n with
  | zero =>
    intro E D pending q hI h0
    have hp : pending = [] := List.length_eq_zero.mp (by rw [hI.plen]; omega)
    subst hp
    have hDE : D = E := by have := hI.dle; omega
    subst hDE
    exact ⟨q, by simp [mpmc_bq.dequeueAll], hI⟩
  | succ n ih =>
    intro E D pending q hI h0
    have hne : D < E := by have := hI.dle; omega
    obtain ⟨q1, hq1eq, hloop, hdeq, hI1⟩ := dequeue_ok hI hne none
    obtain ⟨v, tl, hp⟩ : ∃ v tl, pending = v :: tl := by
      cases pending with
      | nil =>
        have := hI.plen
        simp at this
        omega
      | cons a l => exact ⟨a, l, rfl⟩
    subst hp
    rw [show ((v :: tl)[0]? : Option T) = some v from by simp] at hdeq
    obtain ⟨q2, hrest, hI2⟩ := ih hI1 (by omega)
    refine ⟨q2, ?_, hI2⟩
    simp only [mpmc_bq.dequeueAll, hdeq, hrest, List.tail_cons]

theorem edPairs_inv {T : Type} {N : Nat} : ∀ (vs : List T) {c : Nat}
    {q : mpmc_bq T}, QInv N c c ([] : List T) q →
    ∃ q', q.edPairs vs = some q'
      ∧ QInv N (c + vs.length) (c + vs.length) ([] : List T) q' := by
  intro vs
  induction vs with
  | nil =>
    intro c q hI
    exact ⟨q, by simp [mpmc_bq.edPairs], by simpa using hI⟩
  | cons v vs ih =>
    intro c q hI
    have hroom : c < c + N := by have := hI.ntwo; omega
    obtain ⟨q1, hl1, henq, hI1⟩ := enqueue_ok hI hroom v
    have hI1b : QInv N (c + 1) c [v] q1 := by simpa using hI1
    obtain ⟨q2, hq2eq, hl2, hdeq, hI2⟩ := dequeue_ok hI1b (by omega) none
    obtain ⟨q3, hrest, hI3⟩ := ih hI2
    refine ⟨q3, ?_, ?_⟩
    · simp only [mpmc_bq.edPairs, henq, hdeq, hrest]
    · rw [List.length_cons, show c + (vs.length + 1) = c + 1 + vs.length from by omega]
      exact hI3

/-- The wrapping difference of two already-wrapped counters with a
small true difference is that true difference. -/
theorem sub64_mod_of_le {a b : Nat} (h : b ≤ a) (h2 : a - b < M64) :
    sub64 (a % M64) (b % M64) = a - b := by
  unfold sub64 M64 at *
  omega

/-! ### Concrete states used by the witnesses -/

def qInit2 : mpmc_bq Nat :=
  { m_ring := [{ m_pos := 0, m_data := none }, { m_pos := 1, m_data := none }],
    m_capacity := 1, m_enqueue_pos := 0, m_dequeue_pos := 0 }

def qE1 : mpmc_bq Nat :=
  { m_ring := [{ m_pos := 1, m_data := some 5 }, { m_pos := 1, m_data := none }],
    m_capacity := 1, m_enqueue_pos := 1, m_dequeue_pos := 0 }

def qFull2 : mpmc_bq Nat :=
  { m_ring := [{ m_pos := 1, m_data := some 5 }, { m_pos := 2, m_data := some 6 }],
    m_capacity := 1, m_enqueue_pos := 2, m_dequeue_pos := 0 }

def qDeq2 : mpmc_bq Nat :=
  { m_ring := [{ m_pos := 2, m_data := some 5 }, { m_pos := 2, m_data := some 6 }],
    m_capacity := 1, m_enqueue_pos := 2, m_dequeue_pos := 1 }

def qInit4 : mpmc_bq Nat :=
  { m_ring := [{ m_pos := 0, m_data := none }, { m_pos := 1, m_data := none },
               { m_pos := 2, m_data := none }, { m_pos := 3, m_data := none }],
    m_capacity := 3, m_enqueue_pos := 0, m_dequeue_pos := 0 }

theorem qInit2_constructed : mpmc_bq.construct Nat 2 = some qInit2 := by decide

theorem qInit4_constructed : mpmc_bq.construct Nat 4 = some qInit4 := by decide

/-! ### The claims -/

/-- C1: on every reachable state the wrapping difference
`enqueue_pos - dequeue_pos` lies in `[0, N]`, and it counts exactly the
successfully enqueued but not yet dequeued elements. -/
theorem mpmc_bq_cursor_gap_bounded {T : Type} {N : Nat} {q : mpmc_bq T}
    (hN : N < M64) (h : Reaches T N q) :
    sub64 q.m_enqueue_pos q.m_dequeue_pos ≤ N
      ∧ ∃ E D pending, QInv N E D pending q
          ∧ pending.length = sub64 q.m_enqueue_pos q.m_dequeue_pos := by
  obtain ⟨E, D, pending, hI⟩ := reaches_inv hN h
  have hele := hI.ele
  have hdle := hI.dle
  have hsub : sub64 q.m_enqueue_pos q.m_dequeue_pos = E - D := by
    rw [hI.ep, hI.dp, sub64_mod_of_le hdle (by omega)]
  exact ⟨by omega, E, D, pending, hI, by rw [hsub]; exact hI.plen⟩

/-- C1 witness at the fresh two-cell queue. -/
theorem mpmc_bq_cursor_gap_bounded_witness :
    sub64 qInit2.m_enqueue_pos qInit2.m_dequeue_pos ≤ 2 :=
  (mpmc_bq_cursor_gap_bounded (by decide)
    (Reaches.init qInit2 qInit2_constructed)).1

/-- C2: values enqueued by a single producer (each call returning
`true`) are returned by a subsequent run of dequeues exactly once each
and in the enqueue (ticket) order. -/
theorem mpmc_bq_fifo_single_producer_consumer {T : Type} {N : Nat}
    {q0 q1 : mpmc_bq T} {vs : List T} (hN : N < M64)
    (hc : mpmc_bq.construct T N = some q0)
    (he : q0.enqueueAll vs = some (q1, true)) :
    ∃ q2, q1.dequeueAll vs.length = some (q2, vs) := by
  have hI0 := construct_inv hN hc
  have hI1 := enqueueAll_inv vs hI0 he
  have hI1b : QInv N vs.length 0 vs q1 := by simpa using hI1
  obtain ⟨q2, h2, _⟩ := dequeueAll_inv vs.length hI1b (by omega)
  exact ⟨q2, h2⟩

/-- C2 witness: enqueue `5, 6` into a two-cell queue, then dequeue both. -/
theorem mpmc_bq_fifo_single_producer_consumer_witness :
    (qInit2.enqueueAll [5, 6] = some (qFull2, true))
      ∧ (qFull2.dequeueAll 2).map Prod.snd = some [5, 6] := by
  refine ⟨by decide, ?_⟩
  obtain ⟨q2, h⟩ := mpmc_bq_fifo_single_producer_consumer (by decide)
    qInit2_constructed
    (by decide : qInit2.enqueueAll [5, 6] = some (qFull2, true))
  rw [show qFull2.dequeueAll 2 = some (q2, [5, 6]) from h]
  rfl

/-- C3: the concrete `N = 4` scenario: `empty()` is `true`, a first
dequeue fails, four enqueues succeed, a fifth fails, four dequeues
return `10, 20, 30, 40` in order, and a fifth dequeue fails. -/
theorem mpmc_bq_scenario_n4 :
    (do
      let q0 ← mpmc_bq.construct Nat 4
      let e0 ← q0.empty
      let (q1, d1, b1) ← q0.dequeue none
      let (q2, b2) ← q1.enqueue 10
      let (q3, b3) ← q2.enqueue 20
      let (q4, b4) ← q3.enqueue 30
      let (q5, b5) ← q4.enqueue 40
      let (q6, b6) ← q5.enqueue 50
      let (q7, o1, c1) ← q6.dequeue none
      let (q8, o2, c2) ← q7.dequeue none
      let (q9, o3, c3) ← q8.dequeue none
      let (q10, o4, c4) ← q9.dequeue none
      let (_, o5, c5) ← q10.dequeue none
      pure (e0, (d1, b1), [b2, b3, b4, b5], b6,
        [o1, o2, o3, o4], [c1, c2, c3, c4], (o5, c5)))
      = some (true, (none, false), [true, true, true, true], false,
          [some 10, some 20, some 30, some 40], [true, true, true, true],
          (none, false)) := by
  rfl

/-- C4: after `j * N` successful enqueue/dequeue pairs on a fresh
queue, both cursors have advanced by `j * N` (modulo the word width)
and every cell's sequence equals its initial value `i` plus `j * N`, so
the queue behaves like a fresh one again. -/
theorem mpmc_bq_wrap_pairs {T : Type} {N j : Nat} {q0 : mpmc_bq T}
    {vs : List T} (hN : N < M64) (hc : mpmc_bq.construct T N = some q0)
    (hlen : vs.length = j * N) :
    ∃ q', q0.edPairs vs = some q'
      ∧ q'.m_enqueue_pos = (j * N) % M64
      ∧ q'.m_dequeue_pos = (j * N) % M64
      ∧ ∀ i, i < N → (q'.m_ring.getD i cell0).m_pos = (i + j * N) % M64 := by
  have hI0 := construct_inv hN hc
  obtain ⟨q', hrun, hI⟩ := edPairs_inv vs hI0
  rw [hlen] at hI
  have hI2 : QInv N (j * N) (j * N) ([] : List T) q' := by simpa using hI
  refine ⟨q', hrun, hI2.ep, hI2.dp, ?_⟩
  intro i hi
  have hN0 : 0 < N := by have := hI2.ntwo; omega
  have hmod : (j * N + i) % N = i := by
    rw [Nat.mul_comm j N, Nat.mul_add_mod, Nat.mod_eq_of_lt hi]
  have ht : ticket (j * N) N i = j * N + i := by
    have h5 := ticket_eq (D := j * N) hN0 (p := j * N + i) (by omega) (by omega)
    rw [hmod] at h5
    exact h5
  rw [hI2.seqs i hi, ht, if_neg (by omega), Nat.add_comm (j * N) i]

/-- C4 witness: one full wrap (`j = 1`) of the two-cell queue. -/
theorem mpmc_bq_wrap_pairs_witness :
    (qInit2.edPairs [3, 4]).map (fun r => (r.m_enqueue_pos, r.m_dequeue_pos))
      = some (2, 2) := by
  obtain ⟨q', h1, h2, h3, _⟩ := mpmc_bq_wrap_pairs (by decide)
    qInit2_constructed
    (by decide : ([3, 4] : List Nat).length = 1 * 2)
  rw [h1,
    show Option.map (fun r : mpmc_bq Nat => (r.m_enqueue_pos, r.m_dequeue_pos))
        (some q') = some (q'.m_enqueue_pos, q'.m_dequeue_pos) from rfl,
    h2, h3]
  decide

/-- C5: whenever `enqueue` or `dequeue` returns `false`, the queue
state (and, for `dequeue`, the caller's out-parameter) is exactly what
it was before the call: there are no partial-failure states. -/
theorem mpmc_bq_failure_leaves_state {T : Type} {N : Nat} {q : mpmc_bq T}
    (hN : N < M64) (h : Reaches T N q) :
    (∀ v q' b, q.enqueue v = some (q', b) → b = false → q' = q)
      ∧ (∀ d q' d' b, q.dequeue d = some (q', d', b) → b = false →
          q' = q ∧ d' = d) := by
  obtain ⟨E, D, pending, hI⟩ := reaches_inv hN h
  constructor
  · intro v q' b he hb
    subst hb
    rcases Nat.lt_or_ge E (D + N) with hroom | hfull
    · obtain ⟨q1, _, henq, _⟩ := enqueue_ok hI hroom v
      rw [henq] at he
      simp at he
    · obtain ⟨_, henq⟩ := enqueue_full hI (by have := hI.ele; omega) v
      rw [henq] at he
      simp only [Option.some.injEq, Prod.mk.injEq] at he
      exact he.1.symm
  · intro d q' d' b hd hb
    subst hb
    rcases Nat.lt_or_ge D E with hne | hemp
    · obtain ⟨q1, _, _, hdeq, _⟩ := dequeue_ok hI hne d
      rw [hdeq] at hd
      simp at hd
    · obtain ⟨_, hdeq⟩ := dequeue_empty hI (by have := hI.dle; omega) d
      rw [hdeq] at hd
      simp only [Option.some.injEq, Prod.mk.injEq] at hd
      exact ⟨hd.1.symm, hd.2.1.symm⟩

/-- C5 witness: a failing dequeue on the fresh queue and a failing
enqueue on the full queue leave the respective states unchanged. -/
theorem mpmc_bq_failure_leaves_state_witness :
    (qInit2 = qInit2 ∧ (none : Option Nat) = none) ∧ qFull2 = qFull2 := by
  have r0 : Reaches Nat 2 qInit2 := Reaches.init qInit2 qInit2_constructed
  have r1 : Reaches Nat 2 qE1 := Reaches.enq qInit2 qE1 5 true r0 (by decide)
  have r2 : Reaches Nat 2 qFull2 := Reaches.enq qE1 qFull2 6 true r1 (by decide)
  refine ⟨(mpmc_bq_failure_leaves_state (by decide) r0).2 none qInit2 none false
      (by decide) rfl,
    (mpmc_bq_failure_leaves_state (by decide) r2).1 7 qFull2 false
      (by decide) rfl⟩

/-- C6: construction succeeds exactly for the capacities `N` that are
powers of two with `N ≥ 2`. -/
theorem mpmc_bq_construct_iff_pow_two (T : Type) (n : Nat) :
    (mpmc_bq.construct T n).isSome = true ↔ (2 ≤ n ∧ ∃ k, n = 2 ^ k) := by
  unfold mpmc_bq.construct
  split
  case isTrue hg =>
    simp only [Option.isSome_some, true_iff]
    exact ⟨hg.1, land_pred_eq_zero_pow n hg.1 hg.2⟩
  case isFalse hg =>
    simp only [Option.isSome_none]
    constructor
    · intro hh
      exact absurd hh (by decide)
    · rintro ⟨h2, k, hk⟩
      exact absurd ⟨h2, by rw [hk]; exact pow_two_land_pred k⟩ hg

/-- C6 witness: `N = 4` is accepted while `N = 0, 1, 3, 6` are rejected. -/
theorem mpmc_bq_construct_iff_pow_two_witness :
    ((mpmc_bq.construct Nat 4).isSome = true)
      ∧ ((mpmc_bq.construct Nat 0).isSome = false)
      ∧ ((mpmc_bq.construct Nat 1).isSome = false)
      ∧ ((mpmc_bq.construct Nat 3).isSome = false)
      ∧ ((mpmc_bq.construct Nat 6).isSome = false) :=
  ⟨(mpmc_bq_construct_iff_pow_two Nat 4).mpr ⟨by decide, 2, by decide⟩,
    by decide, by decide, by decide, by decide⟩

/-- C7: directly after construction every cell `i` has sequence `i` and
both cursors are `0`. -/
theorem mpmc_bq_fresh_state {T : Type} {N : Nat} {q : mpmc_bq T}
    (hc : mpmc_bq.construct T N = some q) :
    q.m_enqueue_pos = 0 ∧ q.m_dequeue_pos = 0 ∧ q.m_ring.length = N
      ∧ ∀ i, i < N → (q.m_ring.getD i cell0).m_pos = i := by
  unfold mpmc_bq.construct at hc
  split at hc
  case isFalse => exact absurd hc (by simp)
  case isTrue hg =>
    injection hc with hc
    subst hc
    refine ⟨rfl, rfl, by simp, ?_⟩
    intro i hi
    rw [getD_init N i hi]

/-- C7 witness at `N = 4`. -/
theorem mpmc_bq_fresh_state_witness :
    qInit4.m_enqueue_pos = 0 ∧ qInit4.m_dequeue_pos = 0
      ∧ qInit4.m_ring.length = 4
      ∧ (qInit4.m_ring.getD 2 cell0).m_pos = 2 := by
  have h := mpmc_bq_fresh_state qInit4_constructed
  exact ⟨h.1, h.2.1, h.2.2.1, h.2.2.2 2 (by decide)⟩

/-- C8: the signed two's-complement reading of the wrapping difference
decides the three branches correctly whenever the true distance is
below `2 ^ 63` — in particular across a wrap of the 64-bit counters —
while the naive unsigned comparison of the stored values disagrees with
it at a wrap point. -/
theorem mpmc_bq_signed_diff_wrap :
    (∀ s p : Nat, ((s ≤ p ∧ p - s ≤ H63) ∨ (p ≤ s ∧ s - p < H63)) →
        (diffInt (s % M64) (p % M64) = 0 ↔ s = p)
      ∧ (diffInt (s % M64) (p % M64) < 0 ↔ s < p)
      ∧ (0 < diffInt (s % M64) (p % M64) ↔ p < s))
    ∧ (diffInt (M64 % M64) ((M64 - 1) % M64) = 1
        ∧ M64 % M64 < (M64 - 1) % M64) := by
  constructor
  · intro s p h
    rw [diffInt_spec s p h]
    refine ⟨?_, ?_, ?_⟩ <;> omega
  · exact ⟨by decide, by decide⟩

/-- C8 witness: an instance of the branch characterisation. -/
theorem mpmc_bq_signed_diff_wrap_witness :
    diffInt (5 % M64) (7 % M64) < 0 :=
  ((mpmc_bq_signed_diff_wrap.1 5 7 (Or.inl ⟨by decide, by decide⟩)).2.1).mpr
    (by decide)

/-- C9: in a sequential execution from a reachable state, both
operations finish, and the first loop iteration already decides the
call (the CAS succeeds whenever the `diff == 0` branch is reached), so
giving the loop any more fuel changes nothing. -/
theorem mpmc_bq_sequential_first_iteration {T : Type} {N : Nat}
    {q : mpmc_bq T} (hN : N < M64) (h : Reaches T N q) (v : T)
    (d : Option T) :
    (∀ fuel, q.enqueueLoop v (fuel + 1) q.m_enqueue_pos
        = q.enqueueLoop v 1 q.m_enqueue_pos)
      ∧ (q.enqueue v).isSome = true
      ∧ (∀ fuel, q.dequeueLoop d (fuel + 1) q.m_dequeue_pos
          = q.dequeueLoop d 1 q.m_dequeue_pos)
      ∧ (q.dequeue d).isSome = true := by
  obtain ⟨E, D, pending, hI⟩ := reaches_inv hN h
  have hE : ∃ r, ∀ fuel, q.enqueueLoop v (fuel + 1) q.m_enqueue_pos = some r := by
    rcases Nat.lt_or_ge E (D + N) with hroom | hfull
    · obtain ⟨q1, hloop, _, _⟩ := enqueue_ok hI hroom v
      exact ⟨(q1, true), hloop⟩
    · obtain ⟨hloop, _⟩ := enqueue_full hI (by have := hI.ele; omega) v
      exact ⟨(q, false), hloop⟩
  have hD : ∃ r, ∀ fuel, q.dequeueLoop d (fuel + 1) q.m_dequeue_pos = some r := by
    rcases Nat.lt_or_ge D E with hne | hemp
    · obtain ⟨q1, _, hloop, _, _⟩ := dequeue_ok hI hne d
      exact ⟨(q1, pending[0]?, true), hloop⟩
    · obtain ⟨hloop, _⟩ := dequeue_empty hI (by have := hI.dle; omega) d
      exact ⟨(q, d, false), hloop⟩
  obtain ⟨r, hr⟩ := hE
  obtain ⟨s, hs⟩ := hD
  refine ⟨?_, ?_, ?_, ?_⟩
  · intro fuel
    rw [hr fuel, ← hr 0]
  · rw [show q.enqueue v = some r from hr 1]
    rfl
  · intro fuel
    rw [hs fuel, ← hs 0]
  · rw [show q.dequeue d = some s from hs 1]
    rfl

/-- C9 witness at the fresh two-cell queue. -/
theorem mpmc_bq_sequential_first_iteration_witness :
    (qInit2.enqueue 9).isSome = true ∧ (qInit2.dequeue none).isSome = true := by
  have h := mpmc_bq_sequential_first_iteration (by decide)
    (Reaches.init qInit2 qInit2_constructed) 9 none
  exact ⟨h.2.1, h.2.2.2⟩

/-- C10: a successful dequeue advances `m_dequeue_pos` by one and
re-arms the claimed cell's sequence to `pos + m_capacity + 1`, but does
not clear the payload: the cell still holds the copy that was returned,
and every other field of the queue is untouched. -/
theorem mpmc_bq_dequeue_frame {T : Type} {N : Nat} {q q' : mpmc_bq T}
    {d d' : Option T} (hN : N < M64) (h : Reaches T N q)
    (hd : q.dequeue d = some (q', d', true)) :
    d' = (q.m_ring.getD (q.m_dequeue_pos &&& q.m_capacity) cell0).m_data
      ∧ (q'.m_ring.getD (q.m_dequeue_pos &&& q.m_capacity) cell0).m_data = d'
      ∧ (q'.m_ring.getD (q.m_dequeue_pos &&& q.m_capacity) cell0).m_pos
          = (q.m_dequeue_pos + q.m_capacity + 1) % M64
      ∧ q'.m_enqueue_pos = q.m_enqueue_pos
      ∧ q'.m_dequeue_pos = (q.m_dequeue_pos + 1) % M64
      ∧ q'.m_capacity = q.m_capacity
      ∧ q'.m_ring.length = q.m_ring.length
      ∧ (∀ i, i ≠ q.m_dequeue_pos &&& q.m_capacity →
          q'.m_ring.getD i cell0 = q.m_ring.getD i cell0) := by
  obtain ⟨E, D, pending, hI⟩ := reaches_inv hN h
  rcases Nat.lt_or_ge D E with hne | hemp
  · obtain ⟨q1, hq1eq, hloop, hdeq, hI1⟩ := dequeue_ok hI hne d
    rw [hdeq] at hd
    simp only [Option.some.injEq, Prod.mk.injEq] at hd
    obtain ⟨hq1, hd', _⟩ := hd
    subst hq1
    obtain ⟨k, hk⟩ := hI.kpow
    have hN0 : 0 < N := by have := hI.ntwo; omega
    have hk64 : k ≤ 64 := le_of_lt (pow_lt_64 hk hI.nlt)
    have hidx : q.m_dequeue_pos &&& q.m_capacity = D % N := by
      rw [hI.dp, hI.cap, hk, mask_idx k hk64]
    have hiD : D % N < N := Nat.mod_lt _ hN0
    have hdata : (q.m_ring.getD (D % N) cell0).m_data = pending[0]? := by
      have h0 := hI.datas 0 (by omega)
      rw [Nat.add_zero] at h0
      exact h0
    refine ⟨?_, ?_, ?_, ?_, ?_, ?_, ?_, ?_⟩
    · rw [hidx, hdata]
      exact hd'.symm
    · rw [hidx, hq1eq, getD_set_self _ (by rw [hI.len]; exact hiD) _ _]
      exact hd'
    · rw [hidx, hq1eq, getD_set_self _ (by rw [hI.len]; exact hiD) _ _,
        hI.dp, hI.cap, show D % M64 + (N - 1) + 1 = D % M64 + N from by omega,
        Nat.mod_add_mod]
    · rw [hq1eq]
    · rw [hq1eq, hI.dp, Nat.mod_add_mod]
    · rw [hq1eq]
    · rw [hq1eq]
      simp
    · intro i hi
      rw [hidx] at hi
      rw [hq1eq, getD_set_ne _ (Ne.symm hi) _ _]
  · obtain ⟨_, hdeq⟩ := dequeue_empty hI (by have := hI.dle; omega) d
    rw [hdeq] at hd
    simp at hd

/-- C10 witness: dequeuing `5` from the full two-cell queue leaves the
stale copy of `5` in the cell and only advances the consumer cursor. -/
theorem mpmc_bq_dequeue_frame_witness :
    ((qDeq2.m_ring.getD (qFull2.m_dequeue_pos &&& qFull2.m_capacity) cell0).m_data
        = some 5)
      ∧ qDeq2.m_dequeue_pos = (qFull2.m_dequeue_pos + 1) % M64
      ∧ qDeq2.m_enqueue_pos = qFull2.m_enqueue_pos := by
  have r0 : Reaches Nat 2 qInit2 := Reaches.init qInit2 qInit2_constructed
  have r1 : Reaches Nat 2 qE1 := Reaches.enq qInit2 qE1 5 true r0 (by decide)
  have r2 : Reaches Nat 2 qFull2 := Reaches.enq qE1 qFull2 6 true r1 (by decide)
  have h := mpmc_bq_dequeue_frame (by decide) r2
    (by decide : qFull2.dequeue none = some (qDeq2, some 5, true))
  exact ⟨h.2.1, h.2.2.2.2.1, h.2.2.2.1⟩
